import Mathlib

/-!
Verification development for the reference-validator `compare` package.

The Go source represents Kubernetes resource documents as
`unstructured.Unstructured` (a generic JSON-like tree).  We embed that data
model as the inductive `Json` below, together with the canonical
serialization (Go's `MarshalJSON` on `map[string]interface{}` emits object
keys in sorted order), the metadata accessors used by the code, and the
`ObjMetadata` identity key from sigs.k8s.io/cli-utils.
-/

set_option autoImplicit false

namespace RefValidator

/-- Generic JSON-like document tree: the shallow embedding of
`unstructured.Unstructured`'s `map[string]interface{}` content. -/
inductive Json where
  | null : Json
  | bool (b : Bool) : Json
  | num (n : Int) : Json
  | str (s : String) : Json
  | arr (elems : List Json) : Json
  | obj (fields : List (String × Json)) : Json

/-- Lexicographic order on character lists by code point (Go compares
keys bytewise; on the ASCII keys involved the orders agree). -/
def charListLe : List Char → List Char → Bool
  | [], _ => true
  | _ :: _, [] => false
  | a :: as, b :: bs =>
      if a.toNat < b.toNat then true
      else if b.toNat < a.toNat then false
      else charListLe as bs

/-- Lexicographic string order as a Boolean. -/
def strLe (a b : String) : Bool := charListLe a.data b.data

/-- Insert a rendered field into a list of rendered fields, sorted by key.
Models Go's `encoding/json` emitting map keys in sorted order. -/
def insertRendered (p : String × String) : List (String × String) → List (String × String)
  | [] => [p]
  | q :: rest => if strLe p.1 q.1 then p :: q :: rest else q :: insertRendered p rest

/-- Sort rendered fields by key (insertion sort). -/
def sortRendered : List (String × String) → List (String × String)
  | [] => []
  | p :: rest => insertRendered p (sortRendered rest)

mutual

/-- Canonical serialization of a document: the embedding of
`u.MarshalJSON()` (and, for content equality purposes, `yaml.Marshal`):
deterministic, object keys sorted. -/
def marshalJson : Json → String
  | .null => "null"
  | .bool b => if b then "true" else "false"
  | .num n => toString n
  | .str s => "\x22" ++ s ++ "\x22"
  | .arr elems =>
      "[" ++ String.intercalate "," (marshalList elems) ++ "]"
  | .obj fields =>
      "\x7b" ++
        String.intercalate ","
          ((sortRendered (renderFields fields)).map
            (fun p => "\x22" ++ p.1 ++ "\x22:" ++ p.2)) ++
        "\x7d"

/-- Serialize each array element. -/
def marshalList : List Json → List String
  | [] => []
  | x :: xs => marshalJson x :: marshalList xs

/-- Render each object field to its serialized value. -/
def renderFields : List (String × Json) → List (String × String)
  | [] => []
  | (k, v) :: rest => (k, marshalJson v) :: renderFields rest

end

/-- Look up a field of a JSON object field list: first binding wins. -/
def lookupField : List (String × Json) → String → Option Json
  | [], _ => none
  | (k, v) :: rest, key => if k = key then some v else lookupField rest key

/-- `u.GetKind()`-style string accessor: returns `""` when the document is
not an object, the field is absent, or it is not a string. -/
def getStringField (d : Json) (key : String) : String :=
  match d with
  | .obj fields =>
      match lookupField fields key with
      | some (.str s) => s
      | _ => ""
  | _ => ""

/-- `u.GetKind()`. -/
def getKind (d : Json) : String := getStringField d "kind"

/-- `u.GetAPIVersion()`. -/
def getAPIVersion (d : Json) : String := getStringField d "apiVersion"

/-- Accessor for a string field nested under `metadata`. -/
def getMetadataString (d : Json) (key : String) : String :=
  match d with
  | .obj fields =>
      match lookupField fields "metadata" with
      | some m => getStringField m key
      | none => ""
  | _ => ""

/-- `u.GetName()`. -/
def getName (d : Json) : String := getMetadataString d "name"

/-- `u.GetNamespace()`. -/
def getNamespace (d : Json) : String := getMetadataString d "namespace"

/-- Split a character list at every occurrence of a separator character. -/
def splitOnChar (c : Char) : List Char → List (List Char)
  | [] => [[]]
  | x :: rest =>
    match splitOnChar c rest with
    | [] => [[]]
    | g :: gs => if x = c then [] :: g :: gs else (x :: g) :: gs

/-- The API group of an `apiVersion` string: `"g/v"` has group `g`, a bare
version such as `"v1"` has group `""` (as `schema.FromAPIVersionAndKind`). -/
def apiGroup (apiVersion : String) : String :=
  match splitOnChar '/' apiVersion.data with
  | [g, _] => String.mk g
  | _ => ""

/-- The identity key `object.ObjMetadata` from sigs.k8s.io/cli-utils:
the tuple (namespace, name, group, kind). -/
structure ObjMetadata where
  nspace : String
  name : String
  group : String
  kind : String
deriving DecidableEq, Repr

/-- `object.NilObjMetadata`. -/
def nilObjMetadata : ObjMetadata := ⟨"", "", "", ""⟩

/-- `ObjMetadata.String()`: `namespace_name_group_kind`. -/
def objMetaString (o : ObjMetadata) : String :=
  o.nspace ++ "_" ++ o.name ++ "_" ++ o.group ++ "_" ++ o.kind

/-- Index of the first occurrence of a character (strings.Index). -/
def firstIdx (s : List Char) (c : Char) : Option Nat :=
  match s with
  | [] => none
  | x :: rest =>
      if x = c then some 0
      else match firstIdx rest c with
           | some i => some (i + 1)
           | none => none

/-- Index of the last occurrence of a character (strings.LastIndex). -/
def lastIdx (s : List Char) (c : Char) : Option Nat :=
  match lastIdx' s c 0 with
  | some i => some i
  | none => none
where
  /-- Helper tracking the current offset; returns the largest index found. -/
  lastIdx' : List Char → Char → Nat → Option Nat
  | [], _, _ => none
  | x :: rest, c, off =>
      match lastIdx' rest c (off + 1) with
      | some i => some i
      | none => if x = c then some off else none

/-- `object.ParseObjMetadata`: split `namespace_name_group_kind` back into
an `ObjMetadata` (first separator bounds the namespace, the last two bound
kind and group).  Returns `none` on malformed input (the Go function
returns the nil metadata plus an error). -/
def parseObjMetadata (s : String) : Option ObjMetadata :=
  let cs := s.data
  match firstIdx cs '_' with
  | none => none
  | some i =>
      let nspace := cs.take i
      let rest := cs.drop (i + 1)
      match lastIdx rest '_' with
      | none => none
      | some j =>
          let kind := rest.drop (j + 1)
          let s2 := rest.take j
          match lastIdx s2 '_' with
          | none => none
          | some k =>
              let group := s2.drop (k + 1)
              let name := s2.take k
              some ⟨String.mk nspace, String.mk name, String.mk group, String.mk kind⟩

/-- `unstructuredToObjMeta`: extract the identity key from a document. -/
def unstructuredToObjMeta (obj : Json) : ObjMetadata :=
  ⟨getNamespace obj, getName obj, apiGroup (getAPIVersion obj), getKind obj⟩

/-!
Fuzzy matching: the embedding of `edlib.LevenshteinDistance`,
`edlib.StringsSimilarity` and `edlib.FuzzySearchSetThreshold`
(github.com/hbollon/go-edlib), used by `findFuzzyMatch`.
-/

/-- One row update of the Levenshtein dynamic program.  Given the previous
row paired against the remaining target characters and the value to the
left in the new row, produce the rest of the new row. -/
def levRowAux (c : Char) : List Char → List Nat → Nat → List Nat
  | b :: bs, d :: d1 :: rest, left =>
      let cur := min (left + 1) (min (d1 + 1) (d + (if c = b then 0 else 1)))
      cur :: levRowAux c bs (d1 :: rest) cur
  | _, _, _ => []

/-- Advance the Levenshtein row for one source character. -/
def levStep (bs : List Char) (row : List Nat) (c : Char) : List Nat :=
  match row with
  | [] => []
  | d0 :: _ => (d0 + 1) :: levRowAux c bs row (d0 + 1)

/-- `edlib.LevenshteinDistance` via the standard row-by-row DP. -/
def levenshtein (a b : String) : Nat :=
  let bs := b.data
  let firstRow := List.range (bs.length + 1)
  let finalRow := a.data.foldl (fun row c => levStep bs row c) firstRow
  finalRow.getLastD 0

/-- An exact fraction `num / den` (denominators are always positive in
this development): the embedding of the similarity scores edlib computes
in floating point.  Comparisons are by cross-multiplication, so every
similarity computation reduces to integer arithmetic. -/
structure Frac where
  num : Int
  den : Int
deriving DecidableEq, Repr

/-- `x ≥ y` for fractions with positive denominators. -/
def fracGe (x y : Frac) : Bool := decide (y.num * x.den ≤ x.num * y.den)

/-- `x > y` for fractions with positive denominators. -/
def fracGt (x y : Frac) : Bool := decide (y.num * x.den < x.num * y.den)

/-- `edlib.StringsSimilarity` for the Levenshtein algorithm:
`1 - distance / max(len a, len b)`, i.e. `(maxLen - distance) / maxLen`
(and 1 when both strings are empty). -/
def stringsSimilarity (a b : String) : Frac :=
  let m := Nat.max a.data.length b.data.length
  if m = 0 then ⟨1, 1⟩ else ⟨(m : Int) - (levenshtein a b : Int), (m : Int)⟩

/-- Insert a candidate into the ranked result set (fixed length, shifting
the tail and dropping the last entry), as `FuzzySearchSetThreshold` does
with its pre-allocated `resultSet`/`maxSim` arrays. -/
def rankedInsert : List (String × Frac) → String → Frac → List (String × Frac)
  | [], _, _ => []
  | (r, m) :: rest, s, sim =>
      if fracGt sim m then (s, sim) :: ((r, m) :: rest).dropLast
      else (r, m) :: rankedInsert rest s sim

/-- `edlib.FuzzySearchSetThreshold`: scan the candidate list, keeping the
`quantity` best matches whose similarity reaches `minSim`; unfilled slots
remain the empty string.  The returned list always has length `quantity`. -/
def fuzzySearchSetThreshold (str : String) (strList : List String)
    (quantity : Nat) (minSim : Frac) : List String :=
  let init : List (String × Frac) := List.replicate quantity ("", ⟨0, 1⟩)
  let final := strList.foldl
    (fun acc t =>
      let sim := stringsSimilarity str t
      if fracGe sim minSim then rankedInsert acc t sim else acc)
    init
  final.map Prod.fst

/-!
The document multimap `map[object.ObjMetadata][]unstructured.Unstructured`,
embedded as an insertion-ordered association list (one admissible iteration
order of the Go map).
-/

/-- A multimap from identity keys to document lists. -/
abbrev MultiMap := List (ObjMetadata × List Json)

/-- Map lookup (`refMap[key]` with its `ok` flag). -/
def mmLookup : MultiMap → ObjMetadata → Option (List Json)
  | [], _ => none
  | (k, v) :: rest, key => if k = key then some v else mmLookup rest key

/-- `delete(m, key)`. -/
def mmDelete (m : MultiMap) (key : ObjMetadata) : MultiMap :=
  m.filter (fun p => p.1 ≠ key)

/-- The key set of a multimap (`for k := range m`). -/
def mmKeys (m : MultiMap) : List ObjMetadata := m.map Prod.fst

/-- `curMap[key] = append(curMap[key], u)`. -/
def mmAppend : MultiMap → ObjMetadata → Json → MultiMap
  | [], key, u => [(key, [u])]
  | (k, v) :: rest, key, u =>
      if k = key then (k, v ++ [u]) :: rest else (k, v) :: mmAppend rest key u

/-- `getObjectMetaMap`: group a document list by identity key, preserving
insertion order. -/
def getObjectMetaMap (uListUnstructured : List Json) : MultiMap :=
  uListUnstructured.foldl (fun m u => mmAppend m (unstructuredToObjMeta u) u) []

/-- `objMetadataSetFromMap` followed by `ObjMetadataSet.Intersection`:
the keys of `mapA` that also occur in `mapB`. -/
def intersectionOfSources (mapA mapB : MultiMap) : List ObjMetadata :=
  (mmKeys mapA).filter (fun k => (mmKeys mapB).contains k)

/-- `findFuzzyMatch`: render every reference key to its canonical string,
run the thresholded fuzzy search (threshold 0.5, 3 candidates), and parse
the top-ranked result back into an `ObjMetadata` (the nil metadata when
parsing fails, exactly as the Go code ignores the parse error).  The
result is `none` only if indexing `res[0]` would be out of range — the
situation claim C10 rules out. -/
def findFuzzyMatch (key : ObjMetadata) (refMap : MultiMap) : Option ObjMetadata :=
  let allKeysString := (mmKeys refMap).map objMetaString
  let matchWith := objMetaString key
  let res := fuzzySearchSetThreshold matchWith allKeysString 3 ⟨1, 2⟩
  match res.head? with
  | none => none
  | some top => some ((parseObjMetadata top).getD nilObjMetadata)

/-!
The diff orchestrator.  Temporary-file handling is modelled by an explicit
filesystem state: a list of existing paths (each path a list of
components).  `os.MkdirTemp` creates a fresh directory under `tmp`,
`os.WriteFile` records the file path, `os.RemoveAll p` removes `p` and
everything below it.  The external `kubectl diff` program is an external
collaborator; `runExternalDiff` models its interface contract.
-/

/-- The set of temporary paths currently existing on disk. -/
structure TempFS where
  entries : List (List String)
deriving Repr

/-- `os.MkdirTemp("", pattern)`: create (and record) a fresh scratch
directory; freshness is modelled by suffixing the current entry count. -/
def mkdirTemp (fs : TempFS) (pattern : String) : List String × TempFS :=
  let dir := ["tmp", pattern ++ toString fs.entries.length]
  (dir, ⟨fs.entries ++ [dir]⟩)

/-- `os.RemoveAll(path)`: remove the path and everything below it. -/
def removeAll (fs : TempFS) (path : List String) : TempFS :=
  ⟨fs.entries.filter (fun q => !(path.isPrefixOf q))⟩

/-- `unstructuredToYaml`: make a scratch directory named after the
document, marshal the document, and write it to a file (named by its
identity key) inside that directory.  Returns the file path and the
content, together with the new filesystem state. -/
def unstructuredToYaml (fs : TempFS) (uStructured : Json) :
    (List String × String) × TempFS :=
  let p := mkdirTemp fs (getName uStructured)
  let dir := p.1
  let fs1 := p.2
  let content := marshalJson uStructured
  let file := dir ++ [objMetaString (unstructuredToObjMeta uStructured)]
  ((file, content), ⟨fs1.entries ++ [file]⟩)

/-- Modelled from the spec: the external diff tool (`DiffProgram.Run`,
§6 "External diff tool") returns no error when the two files' contents are
identical and a non-fatal error carrying the textual diff otherwise.  The
tool binary itself is not part of this repository. -/
def runExternalDiff (contentA contentB : String) : Option String :=
  if contentA = contentB then none else some ("diff\n" ++ contentA ++ "\n" ++ contentB)

/-- `diffUnstructured`: write both documents to scratch files, run the
external diff, then `os.RemoveAll` each *file* path.  The first component
is the diff outcome (`none` = identical), the second the filesystem state
after the comparison. -/
def diffUnstructured (fs : TempFS) (res ref : Json) : Option String × TempFS :=
  let pr := unstructuredToYaml fs res
  let resPath := pr.1.1
  let resContent := pr.1.2
  let fs1 := pr.2
  let pf := unstructuredToYaml fs1 ref
  let refPath := pf.1.1
  let refContent := pf.1.2
  let fs2 := pf.2
  let diffFound := runExternalDiff resContent refContent
  let fs3 := removeAll fs2 resPath
  let fs4 := removeAll fs3 refPath
  (diffFound, fs4)

/-- The diff outcome of one pairwise comparison (independent of the
filesystem state, see `diffUnstructured_fst`). -/
def diffOutcome (res ref : Json) : Option String :=
  (diffUnstructured ⟨[]⟩ res ref).1

/-- The outcome of `diffUnstructured` does not depend on the filesystem
state: it is the external tool's verdict on the two marshalled contents. -/
theorem diffUnstructured_fst (fs : TempFS) (res ref : Json) :
    (diffUnstructured fs res ref).1 = diffOutcome res ref := rfl

/-- `exhaustiveDiff`: all-pairs comparison, appending one outcome per
ordered pair of the full cross product. -/
def exhaustiveDiff (resources references : List Json) : List (Option String) :=
  resources.foldl
    (fun errs res =>
      references.foldl (fun errs2 ref => errs2 ++ [diffOutcome res ref]) errs)
    []

/-!
Policy unwrapping.  `runtime.DefaultUnstructuredConverter.FromUnstructured`
into the typed `policyv1.Policy` / `configurationPolicyv1.ConfigurationPolicy`
structures is embedded as structural parsers over the generic tree: the
conversion succeeds exactly when the fields present have the shape the
typed structs require, and a `runtime.RawExtension` payload accepts any
value (its bytes are only unmarshalled later).
-/

/-- A `policyv1.PolicyTemplate`: its `objectDefinition` raw payload. -/
structure PolicyTemplateModel where
  objectDefinition : Json

/-- The part of a typed `policyv1.Policy` the code uses. -/
structure PolicyModel where
  name : String
  policyTemplates : List PolicyTemplateModel

/-- A `configurationPolicyv1.ObjectTemplate`: its raw payload. -/
structure ObjectTemplateModel where
  objectDefinition : Json

/-- The part of a typed `ConfigurationPolicy` the code uses. -/
structure ConfigurationPolicyModel where
  objectTemplates : List ObjectTemplateModel

/-- Parse the elements of `spec.policy-templates`: each must be an object
(a typed `PolicyTemplate` struct); a missing `objectDefinition` leaves the
zero raw payload, modelled as `Json.null`.  Any non-object element makes
the whole typed conversion fail. -/
def parsePolicyTemplates : List Json → Option (List PolicyTemplateModel)
  | [] => some []
  | .obj tf :: rest =>
      (parsePolicyTemplates rest).map
        (fun l => ⟨(lookupField tf "objectDefinition").getD Json.null⟩ :: l)
  | _ :: _ => none

/-- Conversion of an unstructured document into a typed `policyv1.Policy`. -/
def policyFromDoc (d : Json) : Option PolicyModel :=
  match d with
  | .obj fields =>
      match lookupField fields "spec" with
      | some (.obj specFields) =>
          match lookupField specFields "policy-templates" with
          | some (.arr ts) =>
              (parsePolicyTemplates ts).map (fun pts => ⟨getName d, pts⟩)
          | some _ => none
          | none => some ⟨getName d, []⟩
      | some _ => none
      | none => some ⟨getName d, []⟩
  | _ => none

/-- Parse the elements of `spec.object-templates` of a configuration
policy, in the same all-or-nothing way. -/
def parseObjectTemplates : List Json → Option (List ObjectTemplateModel)
  | [] => some []
  | .obj tf :: rest =>
      (parseObjectTemplates rest).map
        (fun l => ⟨(lookupField tf "objectDefinition").getD Json.null⟩ :: l)
  | _ :: _ => none

/-- Unmarshal a raw policy-template payload into an unstructured document
and convert it to a typed `ConfigurationPolicy` (both steps fail on the
wrong shape; either failure makes `getConfigurationPolicy` skip it). -/
def configPolicyFromJson (j : Json) : Option ConfigurationPolicyModel :=
  match j with
  | .obj fields =>
      match lookupField fields "spec" with
      | some (.obj specFields) =>
          match lookupField specFields "object-templates" with
          | some (.arr ots) => (parseObjectTemplates ots).map (⟨·⟩)
          | some _ => none
          | none => some ⟨[]⟩
      | some _ => none
      | none => some ⟨[]⟩
  | _ => none

/-- `getConfigurationPolicy`: convert each policy template's payload,
warning and skipping the ones that fail. -/
def getConfigurationPolicy (p : PolicyModel) : List ConfigurationPolicyModel :=
  p.policyTemplates.filterMap (fun pt => configPolicyFromJson pt.objectDefinition)

/-- Is the value a JSON object (an `Unstructured` unmarshal target)? -/
def isObjJson : Json → Bool
  | .obj _ => true
  | _ => false

/-- `getObjectTemplates`: every object-template payload of every
configuration policy, skipping payloads whose raw bytes do not unmarshal
into an unstructured object. -/
def getObjectTemplates (p : PolicyModel) : List Json :=
  (getConfigurationPolicy p).flatMap
    (fun cPolicy =>
      cPolicy.objectTemplates.filterMap
        (fun ot => if isObjJson ot.objectDefinition then some ot.objectDefinition else none))

/-- `getResourcesFromPolicyIfAny` (current revision): a `Policy` document
is replaced by its extracted object templates (or by nothing when the
typed conversion fails); any other document passes through unchanged. -/
def getResourcesFromPolicyIfAny (curUnstructured : Json) : List Json :=
  if getKind curUnstructured = "Policy" then
    match policyFromDoc curUnstructured with
    | none => []
    | some policy => getObjectTemplates policy
  else
    [curUnstructured]

/-!
Ingestion.  A file on disk is modelled by its path together with the
outcome of `yaml.Unmarshal` on its bytes (`none` = parse error; the YAML
parser is an external collaborator, §6).  A directory is the file list
`util.GetFileNames` returns for it.  The Go loop dereferences the `nil`
pointer `yamlToUnstructured` returns on a parse failure, so ingestion is
embedded in `Except`: the `error` case is that runtime panic.
-/

/-- A file as ingestion sees it: its path and its parse outcome. -/
structure K8sFile where
  path : String
  parsed : Option Json

/-- The ways the ingestion loop can crash. -/
inductive Crash where
  | nilPointerPanic : Crash
deriving DecidableEq, Repr

/-- `yamlToUnstructured`: the parse outcome of the file (`none` logs
"could not convert ... skipping" and stands for the `nil` return). -/
def yamlToUnstructured (file : K8sFile) : Option Json := file.parsed

/-- String-keyed map lookup (the `removeDuplicate` map). -/
def strLookup : List (String × String) → String → Option String
  | [], _ => none
  | (k, v) :: rest, key => if k = key then some v else strLookup rest key

/-- `removeDuplicates`: drop every document whose canonical serialization
was already recorded in the dedup map, recording the current file for new
ones.  Returns the kept documents, the updated map, and the duplicate
warnings `(currentFile, fileSeenBefore)`. -/
def removeDuplicates (uList : List Json) (removeDuplicate : List (String × String))
    (curFile : String) : List Json × List (String × String) × List (String × String) :=
  match uList with
  | [] => ([], removeDuplicate, [])
  | curU :: rest =>
      let key := marshalJson curU
      match strLookup removeDuplicate key with
      | some seenBeforeFilePath =>
          let r := removeDuplicates rest removeDuplicate curFile
          (r.1, r.2.1, (curFile, seenBeforeFilePath) :: r.2.2)
      | none =>
          let r := removeDuplicates rest (removeDuplicate ++ [(key, curFile)]) curFile
          (curU :: r.1, r.2.1, r.2.2)

/-- The fixed exclusion list of `removeResourcesWeDontWantToProcess`. -/
def excludedResource (u : Json) : Bool :=
  getAPIVersion u = "rbac.authorization.k8s.io/v1" ||
  getAPIVersion u = "SecurityContextConstraints-security.openshift.io" ||
  getAPIVersion u = "config.openshift.io/v1" ||
  getAPIVersion u = "security.openshift.io/v1" ||
  getAPIVersion u = "sriovfec.intel.com/v2" ||
  getKind u = "Secret" ||
  getKind u = "Namespace" ||
  getKind u = "MachineConfigPool" ||
  getKind u = "ServiceAccount" ||
  getKind u = "Node" ||
  getKind u = "PlacementBinding" ||
  getKind u = "PlacementRule"

/-- `removeResourcesWeDontWantToProcess`: keep only documents outside the
exclusion list. -/
def removeResourcesWeDontWantToProcess (uList : List Json) : List Json :=
  uList.filter (fun u => !(excludedResource u))

/-- The accumulated ingestion state: the dedup map, the final document
list, and the duplicate warnings issued so far. -/
structure IngestState where
  seen : List (String × String)
  docs : List Json
  dupWarnings : List (String × String)

/-- Process one file of the ingestion loop body.  A parse failure makes
`yamlToUnstructured` return `nil`, which the caller immediately
dereferences (`getResourcesFromPolicyIfAny(*u)`): that is the
`nilPointerPanic` case. -/
def ingestFile (st : IngestState) (curFile : K8sFile) : Except Crash IngestState :=
  match yamlToUnstructured curFile with
  | none => .error .nilPointerPanic
  | some u =>
      let uList := getResourcesFromPolicyIfAny u
      let r := removeDuplicates uList st.seen curFile.path
      let uList3 := removeResourcesWeDontWantToProcess r.1
      .ok ⟨r.2.1, st.docs ++ uList3, st.dupWarnings ++ r.2.2⟩

/-- Process the files of one directory in order. -/
def ingestFiles (st : IngestState) : List K8sFile → Except Crash IngestState
  | [] => .ok st
  | f :: rest =>
      match ingestFile st f with
      | .error e => .error e
      | .ok st' => ingestFiles st' rest

/-- Process the directories in order. -/
def ingestDirs (st : IngestState) : List (List K8sFile) → Except Crash IngestState
  | [] => .ok st
  | d :: rest =>
      match ingestFiles st d with
      | .error e => .error e
      | .ok st' => ingestDirs st' rest

/-- `readK8sResourcesFromDir`: walk every directory/file, parse, unwrap
policies, deduplicate, filter excluded kinds, and accumulate. -/
def readK8sResourcesFromDir (curDir : List (List K8sFile)) : Except Crash IngestState :=
  ingestDirs ⟨[], [], []⟩ curDir

/-!
The matcher and `run`.
-/

/-- One `mapA[key] = ...` insertion of `contentExactMatch`, seen on the
map's key set: adding an already-present canonical key changes nothing. -/
def canonInsert (m : List String) (a : Json) : List String :=
  let key := marshalJson a
  if m.contains key then m else m ++ [key]

/-- `contentExactMatch` builds a Go map keyed by each document's canonical
serialization; this is its key set in insertion order (values are error
strings, all empty since marshalling a finite tree cannot fail). -/
def buildCanonMap (setA : List Json) : List String :=
  setA.foldl canonInsert []

/-- `contentExactMatch` / `equalUnstructuredList`: the two canonical key
sets have equal size and every key of B occurs in A.  (The inner
`errA != errB` branch of the source is dead code: it sits inside the
`!exists` branch, which returns first.) -/
def contentExactMatch (setA setB : List Json) : Bool :=
  let mapA := buildCanonMap setA
  let mapB := buildCanonMap setB
  if mapA.length = mapB.length then mapB.all (fun b => mapA.contains b) else false

/-- `keyExactMatch`: diff the document groups of every key in the key
intersection, removing each matched key from both multimaps.  Returns the
collected diff outcomes and both reduced multimaps. -/
def keyExactMatch (resourcesMap refMap : MultiMap) :
    List (Option String) × MultiMap × MultiMap :=
  let inter := intersectionOfSources resourcesMap refMap
  inter.foldl
    (fun st iSrc =>
      let errs := st.1
      let rmap := st.2.1
      let fmap := st.2.2
      let curResources := (mmLookup rmap iSrc).getD []
      let curReferences := (mmLookup fmap iSrc).getD []
      (errs ++ exhaustiveDiff curResources curReferences,
       mmDelete rmap iSrc, mmDelete fmap iSrc))
    ([], resourcesMap, refMap)

/-- `keyPartialMatch`: for every remaining resource key, fuzzy-search the
reference keys; if the winner is present in the reference multimap, diff
the two groups and then execute `delete(resourcesMap, key)` and
`delete(refMap, key)` — the source deletes the *resource* key from the
reference multimap, not the winning reference key. -/
def keyPartialMatch (resourcesMap refMap : MultiMap) :
    List (Option String) × MultiMap × MultiMap :=
  (mmKeys resourcesMap).foldl
    (fun st key =>
      let errs := st.1
      let rmap := st.2.1
      let fmap := st.2.2
      let equivalentRefKey := (findFuzzyMatch key fmap).getD nilObjMetadata
      let curResources := (mmLookup rmap key).getD []
      match mmLookup fmap equivalentRefKey with
      | none => (errs, rmap, fmap)
      | some curReferences =>
          (errs ++ exhaustiveDiff curResources curReferences,
           mmDelete rmap key, mmDelete fmap key))
    ([], resourcesMap, refMap)

/-- The observable result of `run`: either the early `os.Exit(0)` on a
whole-set exact match, or the two leftover multimaps plus the error value
returned to the caller. -/
inductive RunOutcome where
  | exitZero : RunOutcome
  | result (resourcesMap refMap : MultiMap) (err : Option String) : RunOutcome

/-- The matching part of `run`, applied to the two ingested document
lists: whole-set short-circuit, exact phase, fuzzy phase, then the
unused-reference check (`errors.New("reference CRs are not used")` iff the
reference multimap is still non-empty). -/
def runAfterIngest (uListResources uListReference : List Json) : RunOutcome :=
  if contentExactMatch uListResources uListReference then .exitZero
  else
    let resourcesMap := getObjectMetaMap uListResources
    let refMap := getObjectMetaMap uListReference
    let e := keyExactMatch resourcesMap refMap
    let p := keyPartialMatch e.2.1 e.2.2
    if p.2.2.length > 0 then .result p.2.1 p.2.2 (some "reference CRs are not used")
    else .result p.2.1 p.2.2 none

/-- `run`: ingest both directory sets, then match. -/
def run (resourceDirs referenceDirs : List (List K8sFile)) : Except Crash RunOutcome := do
  let resIngest ← readK8sResourcesFromDir resourceDirs
  let refIngest ← readK8sResourcesFromDir referenceDirs
  pure (runAfterIngest resIngest.docs refIngest.docs)

/-!
Concrete sample documents used by counterexamples and witnesses.
-/

/-- A sample resource document with identity key `_ab__A`. -/
def dR1 : Json :=
  .obj [("apiVersion", .str "v1"), ("kind", .str "A"),
        ("metadata", .obj [("name", .str "ab")]), ("spec", .str "r")]

/-- A sample reference document with identity key `_ax__A`, one edit away
from `dR1`'s key. -/
def dF1 : Json :=
  .obj [("apiVersion", .str "v1"), ("kind", .str "A"),
        ("metadata", .obj [("name", .str "ax")]), ("spec", .str "f")]

/-- The identity key of `dR1`. -/
def kR1 : ObjMetadata := unstructuredToObjMeta dR1

/-- The identity key of `dF1`. -/
def kF1 : ObjMetadata := unstructuredToObjMeta dF1

/-!
Claim theorems.
-/

/-- Claim C1 (code bug evidence).  With one resource document under key
`_ab__A` and one reference document under the fuzzily matching key
`_ax__A`, the fuzzy phase performs the hand-off to the diff orchestrator
(one diff outcome is collected and the resource key is consumed), yet the
winning reference key `kF1` remains in the reference multimap untouched:
`keyPartialMatch` executes `delete(refMap, key)` with the *resource* key,
which is a no-op, instead of deleting the winning reference key. -/
theorem keyPartialMatch_leaves_winning_reference_key :
    (keyPartialMatch [(kR1, [dR1])] [(kF1, [dF1])]).2.2 = [(kF1, [dF1])] ∧
    (keyPartialMatch [(kR1, [dR1])] [(kF1, [dF1])]).1.length = 1 ∧
    (keyPartialMatch [(kR1, [dR1])] [(kF1, [dF1])]).2.1 = [] :=
  ⟨rfl, rfl, rfl⟩

/-- Claim C3 (code bug evidence).  A directory containing a single file
whose content fails to parse: `yamlToUnstructured` returns `nil` (logging
"skipping"), but `readK8sResourcesFromDir` immediately dereferences that
nil pointer in `getResourcesFromPolicyIfAny(*u)`, so ingestion panics
instead of skipping the file and continuing. -/
theorem readK8sResourcesFromDir_parse_failure_panics :
    readK8sResourcesFromDir [[⟨"bad.yaml", none⟩]] = .error Crash.nilPointerPanic ∧
    yamlToUnstructured ⟨"bad.yaml", none⟩ = none :=
  ⟨rfl, rfl⟩

/-- Claim C9 (code bug evidence).  After one pairwise comparison starting
from an empty temporary area, the two files written by
`unstructuredToYaml` have been removed, but the two scratch directories
created by `os.MkdirTemp` are still present: `os.RemoveAll` is called on
the file paths only, never on the directories containing them. -/
theorem diffUnstructured_leaks_scratch_directories :
    ((diffUnstructured ⟨[]⟩ dR1 dF1).2).entries = [["tmp", "ab0"], ["tmp", "ax2"]] ∧
    ((diffUnstructured ⟨[]⟩ dR1 dF1).2).entries ≠ [] :=
  ⟨rfl, by decide⟩

/-- `rankedInsert` preserves the length of the ranked result set. -/
theorem rankedInsert_length (l : List (String × Frac)) (s : String) (sim : Frac) :
    (rankedInsert l s sim).length = l.length := by
  induction l with
  | nil => rfl
  | cons p rest ih =>
      obtain ⟨r, m⟩ := p
      simp only [rankedInsert]
      split
      · simp [List.length_dropLast]
      · simp [ih]

/-- The fuzzy search always returns exactly `quantity` result slots. -/
theorem fuzzySearchSetThreshold_length (str : String) (strList : List String)
    (quantity : Nat) (minSim : Frac) :
    (fuzzySearchSetThreshold str strList quantity minSim).length = quantity := by
  unfold fuzzySearchSetThreshold
  have key : ∀ (l : List String) (init : List (String × Frac)),
      (l.foldl
        (fun acc t =>
          let sim := stringsSimilarity str t
          if fracGe sim minSim then rankedInsert acc t sim else acc)
        init).length = init.length := by
    intro l
    induction l with
    | nil => intro init; rfl
    | cons t rest ih =>
        intro init
        simp only [List.foldl_cons]
        rw [ih]
        split
        · exact rankedInsert_length init t _
        · rfl
  simp [key]

/-- Claim C10: `findFuzzyMatch` is total at its interface.  For every
resource key and reference multimap — the empty multimap included — the
candidate-result list has length 3, so reading its first entry never goes
out of range: the call always produces an `ObjMetadata`, and on the empty
multimap it produces the nil metadata (whose lookup then fails, yielding
the unmatched-key warning in `keyPartialMatch`). -/
theorem findFuzzyMatch_total (key : ObjMetadata) (refMap : MultiMap) :
    (findFuzzyMatch key refMap).isSome = true ∧
    findFuzzyMatch key [] = some nilObjMetadata := by
  constructor
  · unfold findFuzzyMatch
    have hlen := fuzzySearchSetThreshold_length (objMetaString key)
      ((mmKeys refMap).map objMetaString) 3 ⟨1, 2⟩
    cases hres : fuzzySearchSetThreshold (objMetaString key)
        ((mmKeys refMap).map objMetaString) 3 ⟨1, 2⟩ with
    | nil => rw [hres] at hlen; simp at hlen
    | cons a rest => simp [hres]
  · rfl

/-- Claim C2: whenever `run` reaches the matching phases (no early exact
match exit), it returns an error exactly when the reference multimap is
still non-empty afterwards; leftover resource documents never by
themselves produce an error. -/
theorem run_error_iff_unused_reference
    (uListResources uListReference : List Json) (rm fm : MultiMap) (e : Option String)
    (h : runAfterIngest uListResources uListReference = .result rm fm e) :
    (e.isSome = true ↔ fm ≠ []) ∧ (fm = [] → e = none) := by
  unfold runAfterIngest at h
  by_cases hc : contentExactMatch uListResources uListReference
  · simp [hc] at h
  · simp only [hc, Bool.false_eq_true, if_false] at h
    split at h
    · next hl =>
        injection h with h1 h2 h3
        subst h2; subst h3
        exact ⟨iff_of_true rfl (List.ne_nil_of_length_pos hl),
               fun hnil => absurd hnil (List.ne_nil_of_length_pos hl)⟩
    · next hl =>
        injection h with h1 h2 h3
        subst h2; subst h3
        have hnil := List.length_eq_zero.mp (Nat.le_zero.mp (Nat.not_lt.mp hl))
        exact ⟨iff_of_false (by simp) (fun hne => hne hnil), fun _ => rfl⟩

/-- Witness for C2: a run with no resource documents and one reference
document reaches the matching phases, ends with a non-empty reference
multimap, and returns the unused-reference error. -/
theorem run_error_iff_unused_reference_witness :
    runAfterIngest [] [dF1] =
      .result [] [(kF1, [dF1])] (some "reference CRs are not used") ∧
    ((some "reference CRs are not used" : Option String).isSome = true ↔
      ([(kF1, [dF1])] : MultiMap) ≠ []) :=
  ⟨rfl, (run_error_iff_unused_reference [] [dF1] [] [(kF1, [dF1])]
    (some "reference CRs are not used") rfl).1⟩

/-- Appending one element per list entry to an accumulator is the
accumulator followed by the mapped list. -/
theorem foldl_append_singleton {α β : Type} (g : α → β) (l : List α) (acc : List β) :
    l.foldl (fun a x => a ++ [g x]) acc = acc ++ l.map g := by
  induction l generalizing acc with
  | nil => simp
  | cons x rest ih => simp [ih]

/-- `exhaustiveDiff` is exactly the mapped cross product of the two
document lists. -/
theorem exhaustiveDiff_eq_flatMap (resources references : List Json) :
    exhaustiveDiff resources references =
      resources.flatMap (fun res => references.map (fun ref => diffOutcome res ref)) := by
  unfold exhaustiveDiff
  have step : ∀ (rs : List Json) (acc : List (Option String)),
      rs.foldl
        (fun errs res =>
          references.foldl (fun errs2 ref => errs2 ++ [diffOutcome res ref]) errs)
        acc
        = acc ++ rs.flatMap (fun res => references.map (fun ref => diffOutcome res ref)) := by
    intro rs
    induction rs with
    | nil => intro acc; simp
    | cons res rest ih =>
        intro acc
        simp only [List.foldl_cons, List.flatMap_cons]
        rw [foldl_append_singleton (fun ref => diffOutcome res ref) references acc, ih]
        simp
  simpa using step resources []

/-- Claim C5: `exhaustiveDiff` performs one diff per ordered pair of the
full cross product — exactly `|resources| * |references|` outcomes — and
the outcome at position `i * |references| + j` is precisely the
comparison of resource `i` against reference `j`, independent of every
other pair (no short-circuiting). -/
theorem exhaustiveDiff_cross_product (resources references : List Json) :
    (exhaustiveDiff resources references).length =
      resources.length * references.length ∧
    ∀ (i j : Nat) (res ref : Json),
      resources.get? i = some res → references.get? j = some ref →
      (exhaustiveDiff resources references).get? (i * references.length + j) =
        some (diffOutcome res ref) := by
  rw [exhaustiveDiff_eq_flatMap]
  constructor
  · induction resources with
    | nil => simp
    | cons r rest ih => simp [ih, Nat.succ_mul, Nat.add_comm]
  · intro i j res ref hi hj
    induction resources generalizing i with
    | nil => simp at hi
    | cons r rest ih =>
        cases i with
        | zero =>
            simp only [List.get?_cons_zero, Option.some.injEq] at hi
            subst hi
            have hjlen : j < references.length := List.get?_eq_some.mp hj |>.1
            simp only [List.flatMap_cons, Nat.zero_mul, Nat.zero_add]
            rw [List.get?_append (by simpa using hjlen)]
            rw [List.get?_map, hj]
            rfl
        | succ i' =>
            simp only [List.get?_cons_succ] at hi
            simp only [List.flatMap_cons]
            have hlen : (references.map (fun ref => diffOutcome r ref)).length =
                references.length := by simp
            rw [List.get?_append_right (by rw [hlen]; nlinarith [Nat.succ_mul i' references.length])]
            rw [hlen]
            have harith : i' + 1 = i' + 1 := rfl
            have : (i' + 1) * references.length + j - references.length =
                i' * references.length + j := by
              rw [Nat.succ_mul]
              omega
            rw [this]
            exact ih i' hi

/-- Witness for C5: with singleton lists the cross product has exactly one
outcome, found at index 0. -/
theorem exhaustiveDiff_cross_product_witness :
    (exhaustiveDiff [dR1] [dF1]).length = 1 ∧
    (exhaustiveDiff [dR1] [dF1]).get? 0 = some (diffOutcome dR1 dF1) := by
  have h := exhaustiveDiff_cross_product [dR1] [dF1]
  exact ⟨h.1, h.2 0 0 dR1 dF1 rfl rfl⟩

/-- `List.contains` agrees with membership for strings. -/
theorem contains_iff_mem (m : List String) (s : String) :
    m.contains s = true ↔ s ∈ m := by
  rw [List.contains_eq_any_beq]
  constructor
  · intro h; simpa using List.any_beq.mp h
  · intro h; exact List.any_beq.mpr h

/-- Inserting a canonical key already in the map leaves it unchanged. -/
theorem canonInsert_of_mem {m : List String} {a : Json}
    (h : marshalJson a ∈ m) : canonInsert m a = m := by
  simp [canonInsert, (contains_iff_mem m (marshalJson a)).mpr h, h]

/-- Inserting a fresh canonical key appends it. -/
theorem canonInsert_of_not_mem {m : List String} {a : Json}
    (h : marshalJson a ∉ m) : canonInsert m a = m ++ [marshalJson a] := by
  have : m.contains (marshalJson a) = false := by
    cases hc : m.contains (marshalJson a) with
    | false => rfl
    | true => exact absurd ((contains_iff_mem m (marshalJson a)).mp hc) h
  simp [canonInsert, this, h]

/-- The canonical key set built by `contentExactMatch` carries exactly the
canonical forms of the input documents, without duplicates. -/
theorem buildCanonMap_spec (setA : List Json) :
    (buildCanonMap setA).toFinset = (setA.map marshalJson).toFinset ∧
    (buildCanonMap setA).Nodup := by
  have go : ∀ (l : List Json) (acc : List String),
      (l.foldl canonInsert acc).toFinset =
        acc.toFinset ∪ (l.map marshalJson).toFinset ∧
      (acc.Nodup → (l.foldl canonInsert acc).Nodup) := by
    intro l
    induction l with
    | nil => intro acc; simp
    | cons x rest ih =>
        intro acc
        simp only [List.foldl_cons, List.map_cons, List.toFinset_cons]
        by_cases hx : marshalJson x ∈ acc
        · rw [canonInsert_of_mem hx]
          constructor
          · rw [(ih acc).1]
            have hins : acc.toFinset ∪ insert (marshalJson x)
                (rest.map marshalJson).toFinset =
                acc.toFinset ∪ (rest.map marshalJson).toFinset := by
              rw [Finset.union_insert,
                Finset.insert_eq_self.mpr
                  (Finset.mem_union_left _ (List.mem_toFinset.mpr hx))]
            rw [hins]
          · exact (ih acc).2
        · rw [canonInsert_of_not_mem hx]
          constructor
          · rw [(ih (acc ++ [marshalJson x])).1]
            ext s
            simp [or_comm, or_left_comm, or_assoc]
          · intro hnd
            refine (ih (acc ++ [marshalJson x])).2 ?_
            simp [List.nodup_append, hnd, hx]
  exact ⟨by simpa using (go setA []).1, (go setA []).2 List.nodup_nil⟩

/-- Claim C4, amended.  `contentExactMatch` is true exactly when the *set*
of canonical serialized forms of A equals that of B — order-independent
but multiplicity-insensitive — and the relation is reflexive and
symmetric. -/
theorem contentExactMatch_set_semantics :
    (∀ A B : List Json, contentExactMatch A B = true ↔
        (A.map marshalJson).toFinset = (B.map marshalJson).toFinset) ∧
    (∀ A : List Json, contentExactMatch A A = true) ∧
    (∀ A B : List Json, contentExactMatch A B = contentExactMatch B A) := by
  have main : ∀ A B : List Json, contentExactMatch A B = true ↔
      (A.map marshalJson).toFinset = (B.map marshalJson).toFinset := by
    intro A B
    obtain ⟨hAf, hAn⟩ := buildCanonMap_spec A
    obtain ⟨hBf, hBn⟩ := buildCanonMap_spec B
    constructor
    · intro h
      replace h : (if (buildCanonMap A).length = (buildCanonMap B).length
          then (buildCanonMap B).all fun b => (buildCanonMap A).contains b
          else false) = true := h
      split at h
      · next hlen =>
          rw [List.all_eq_true] at h
          have hsub : (buildCanonMap B).toFinset ⊆ (buildCanonMap A).toFinset := by
            intro b hb
            have hbmem : b ∈ buildCanonMap B := List.mem_toFinset.mp hb
            exact List.mem_toFinset.mpr
              ((contains_iff_mem (buildCanonMap A) b).mp (h b hbmem))
          have hcard : (buildCanonMap A).toFinset.card ≤ (buildCanonMap B).toFinset.card := by
            rw [List.toFinset_card_of_nodup hAn, List.toFinset_card_of_nodup hBn, hlen]
          rw [← hAf, ← hBf]
          exact (Finset.eq_of_subset_of_card_le hsub hcard).symm
      · exact absurd h (by simp)
    · intro hf
      have hf' : (buildCanonMap A).toFinset = (buildCanonMap B).toFinset := by
        rw [hAf, hBf, hf]
      have hlen : (buildCanonMap A).length = (buildCanonMap B).length := by
        rw [← List.toFinset_card_of_nodup hAn, ← List.toFinset_card_of_nodup hBn, hf']
      show (if (buildCanonMap A).length = (buildCanonMap B).length
          then (buildCanonMap B).all fun b => (buildCanonMap A).contains b
          else false) = true
      rw [if_pos hlen, List.all_eq_true]
      intro b hb
      have : b ∈ (buildCanonMap A).toFinset := by
        rw [hf']
        exact List.mem_toFinset.mpr hb
      exact (contains_iff_mem (buildCanonMap A) b).mpr (List.mem_toFinset.mp this)
  refine ⟨main, fun A => (main A A).mpr rfl, fun A B => ?_⟩
  by_cases h : (A.map marshalJson).toFinset = (B.map marshalJson).toFinset
  · rw [(main A B).mpr h, ((main B A).mpr h.symm).symm]
  · have hA : contentExactMatch A B = false := by
      cases hc : contentExactMatch A B with
      | false => rfl
      | true => exact absurd ((main A B).mp hc) h
    have hB : contentExactMatch B A = false := by
      cases hc : contentExactMatch B A with
      | false => rfl
      | true => exact absurd ((main B A).mp hc).symm h
    rw [hA, hB]

/-- A sample document for the multiset counterexample. -/
def dC4 : Json := .obj [("kind", .str "A")]

/-- Claim C4 counterexample: the claim as stated (true iff the canonical
*multisets* agree) is false: `contentExactMatch [d, d] [d]` is true even
though the canonical multisets have different cardinalities — the Go maps
deduplicate, so multiplicity is not observed. -/
theorem contentExactMatch_not_multiset_sensitive :
    contentExactMatch [dC4, dC4] [dC4] = true ∧
    (([dC4, dC4].map marshalJson : Multiset String) ≠
      ([dC4].map marshalJson : Multiset String)) := by
  refine ⟨rfl, fun h => ?_⟩
  have := congrArg Multiset.card h
  simp at this

/-- A value found by `lookupField` is strictly smaller than the object
holding it. -/
theorem sizeOf_lookupField {fields : List (String × Json)} {key : String} {v : Json}
    (h : lookupField fields key = some v) : sizeOf v < sizeOf (Json.obj fields) := by
  induction fields with
  | nil => simp [lookupField] at h
  | cons p rest ih =>
      obtain ⟨k, v'⟩ := p
      simp only [lookupField] at h
      split at h
      · injection h with hv
        subst hv
        simp only [Json.obj.sizeOf_spec, List.cons.sizeOf_spec, Prod.mk.sizeOf_spec]
        omega
      · have hrec := ih h
        simp only [Json.obj.sizeOf_spec, List.cons.sizeOf_spec, Prod.mk.sizeOf_spec] at hrec ⊢
        omega

/-- An array element is strictly smaller than the array holding it. -/
theorem sizeOf_mem_arr {elems : List Json} {t : Json} (h : t ∈ elems) :
    sizeOf t < sizeOf (Json.arr elems) := by
  have := List.sizeOf_lt_of_mem h
  simp only [Json.arr.sizeOf_spec]
  omega

/-- Every raw payload a parsed policy template carries is the zero payload
or a strict subterm of the `policy-templates` array it came from. -/
theorem parsePolicyTemplates_sizeOf {ts : List Json} {pts : List PolicyTemplateModel}
    (h : parsePolicyTemplates ts = some pts) :
    ∀ pt ∈ pts, pt.objectDefinition = Json.null ∨
      sizeOf pt.objectDefinition < sizeOf (Json.arr ts) := by
  induction ts generalizing pts with
  | nil =>
      simp only [parsePolicyTemplates, Option.some.injEq] at h
      subst h
      intro pt hpt
      simp at hpt
  | cons x rest ih =>
      cases x with
      | obj tf =>
          simp only [parsePolicyTemplates, Option.map_eq_some'] at h
          obtain ⟨l, hl, hpts⟩ := h
          subst hpts
          intro pt hpt
          rcases List.mem_cons.mp hpt with hhead | htail
          · subst hhead
            cases hod : lookupField tf "objectDefinition" with
            | none => left; simp [hod]
            | some v =>
                right
                simp only [hod, Option.getD_some]
                have hv := sizeOf_lookupField hod
                simp only [Json.obj.sizeOf_spec, Json.arr.sizeOf_spec,
                  List.cons.sizeOf_spec] at hv ⊢
                omega
          · rcases ih hl pt htail with hnull | hlt
            · exact Or.inl hnull
            · right
              simp only [Json.arr.sizeOf_spec, List.cons.sizeOf_spec] at hlt ⊢
              omega
      | null => simp [parsePolicyTemplates] at h
      | bool b => simp [parsePolicyTemplates] at h
      | num n => simp [parsePolicyTemplates] at h
      | str s => simp [parsePolicyTemplates] at h
      | arr es => simp [parsePolicyTemplates] at h

/-- Same bound for the object templates of a configuration policy. -/
theorem parseObjectTemplates_sizeOf {ts : List Json} {ots : List ObjectTemplateModel}
    (h : parseObjectTemplates ts = some ots) :
    ∀ ot ∈ ots, ot.objectDefinition = Json.null ∨
      sizeOf ot.objectDefinition < sizeOf (Json.arr ts) := by
  induction ts generalizing ots with
  | nil =>
      simp only [parseObjectTemplates, Option.some.injEq] at h
      subst h
      intro ot hot
      simp at hot
  | cons x rest ih =>
      cases x with
      | obj tf =>
          simp only [parseObjectTemplates, Option.map_eq_some'] at h
          obtain ⟨l, hl, hots⟩ := h
          subst hots
          intro ot hot
          rcases List.mem_cons.mp hot with hhead | htail
          · subst hhead
            cases hod : lookupField tf "objectDefinition" with
            | none => left; simp [hod]
            | some v =>
                right
                simp only [hod, Option.getD_some]
                have hv := sizeOf_lookupField hod
                simp only [Json.obj.sizeOf_spec, Json.arr.sizeOf_spec,
                  List.cons.sizeOf_spec] at hv ⊢
                omega
          · rcases ih hl ot htail with hnull | hlt
            · exact Or.inl hnull
            · right
              simp only [Json.arr.sizeOf_spec, List.cons.sizeOf_spec] at hlt ⊢
              omega
      | null => simp [parseObjectTemplates] at h
      | bool b => simp [parseObjectTemplates] at h
      | num n => simp [parseObjectTemplates] at h
      | str s => simp [parseObjectTemplates] at h
      | arr es => simp [parseObjectTemplates] at h

/-- Every object template extracted from a raw configuration-policy
payload is the zero payload or a strict subterm of that payload. -/
theorem configPolicyFromJson_sizeOf {j : Json} {cp : ConfigurationPolicyModel}
    (h : configPolicyFromJson j = some cp) :
    ∀ ot ∈ cp.objectTemplates, ot.objectDefinition = Json.null ∨
      sizeOf ot.objectDefinition < sizeOf j := by
  cases j with
  | obj fields =>
      cases hspec : lookupField fields "spec" with
      | none =>
          simp only [configPolicyFromJson, hspec, Option.some.injEq] at h
          subst h
          intro ot hot
          simp at hot
      | some sv =>
          cases sv with
          | obj specFields =>
              cases hots : lookupField specFields "object-templates" with
              | none =>
                  simp only [configPolicyFromJson, hspec, hots, Option.some.injEq] at h
                  subst h
                  intro ot hot
                  simp at hot
              | some ov =>
                  cases ov with
                  | arr ots =>
                      simp only [configPolicyFromJson, hspec, hots,
                        Option.map_eq_some'] at h
                      obtain ⟨l, hl, hcp⟩ := h
                      subst hcp
                      intro ot hot
                      rcases parseObjectTemplates_sizeOf hl ot hot with hnull | hlt
                      · exact Or.inl hnull
                      · right
                        have h1 := sizeOf_lookupField hots
                        have h2 := sizeOf_lookupField hspec
                        omega
                  | null => simp [configPolicyFromJson, hspec, hots] at h
                  | bool b => simp [configPolicyFromJson, hspec, hots] at h
                  | num n => simp [configPolicyFromJson, hspec, hots] at h
                  | str s => simp [configPolicyFromJson, hspec, hots] at h
                  | obj f2 => simp [configPolicyFromJson, hspec, hots] at h
          | null => simp [configPolicyFromJson, hspec] at h
          | bool b => simp [configPolicyFromJson, hspec] at h
          | num n => simp [configPolicyFromJson, hspec] at h
          | str s => simp [configPolicyFromJson, hspec] at h
          | arr es => simp [configPolicyFromJson, hspec] at h
  | null => simp [configPolicyFromJson] at h
  | bool b => simp [configPolicyFromJson] at h
  | num n => simp [configPolicyFromJson] at h
  | str s => simp [configPolicyFromJson] at h
  | arr es => simp [configPolicyFromJson] at h

/-- Every document `getObjectTemplates` extracts from a successfully
converted policy is a strict subterm of the original container document —
in particular none of them is the container itself. -/
theorem getObjectTemplates_sizeOf {d : Json} {p : PolicyModel}
    (hp : policyFromDoc d = some p) {t : Json} (ht : t ∈ getObjectTemplates p) :
    sizeOf t < sizeOf d := by
  unfold getObjectTemplates at ht
  rw [List.mem_flatMap] at ht
  obtain ⟨cp, hcp, hot⟩ := ht
  rw [List.mem_filterMap] at hot
  obtain ⟨ot, hotmem, hott⟩ := hot
  unfold getConfigurationPolicy at hcp
  rw [List.mem_filterMap] at hcp
  obtain ⟨pt, hptmem, hptcp⟩ := hcp
  have hobj : isObjJson ot.objectDefinition = true := by
    by_cases hio : isObjJson ot.objectDefinition
    · exact hio
    · simp [hio] at hott
  have hteq : t = ot.objectDefinition := by
    simp [hobj] at hott
    exact hott.symm
  subst hteq
  have hot_lt : ot.objectDefinition = Json.null ∨
      sizeOf ot.objectDefinition < sizeOf pt.objectDefinition :=
    configPolicyFromJson_sizeOf hptcp ot hotmem
  have hot_lt2 : sizeOf ot.objectDefinition < sizeOf pt.objectDefinition := by
    rcases hot_lt with hnull | hlt
    · rw [hnull] at hobj; simp [isObjJson] at hobj
    · exact hlt
  have hpt_null : pt.objectDefinition ≠ Json.null := by
    intro hnull
    rw [hnull] at hptcp
    simp [configPolicyFromJson] at hptcp
  -- now bound pt.objectDefinition by d via the policy conversion
  cases d with
  | obj fields =>
      cases hspec : lookupField fields "spec" with
      | none =>
          simp only [policyFromDoc, hspec, Option.some.injEq] at hp
          rw [← hp] at hptmem
          simp at hptmem
      | some sv =>
          cases sv with
          | obj specFields =>
              cases hts : lookupField specFields "policy-templates" with
              | none =>
                  simp only [policyFromDoc, hspec, hts, Option.some.injEq] at hp
                  rw [← hp] at hptmem
                  simp at hptmem
              | some tv =>
                  cases tv with
                  | arr ts =>
                      simp only [policyFromDoc, hspec, hts, Option.map_eq_some'] at hp
                      obtain ⟨pts, hpts, hpeq⟩ := hp
                      rw [← hpeq] at hptmem
                      rcases parsePolicyTemplates_sizeOf hpts pt hptmem with hnull | hlt
                      · exact absurd hnull hpt_null
                      · have h1 := sizeOf_lookupField hts
                        have h2 := sizeOf_lookupField hspec
                        omega
                  | null => simp [policyFromDoc, hspec, hts] at hp
                  | bool b => simp [policyFromDoc, hspec, hts] at hp
                  | num n => simp [policyFromDoc, hspec, hts] at hp
                  | str s => simp [policyFromDoc, hspec, hts] at hp
                  | obj f2 => simp [policyFromDoc, hspec, hts] at hp
          | null => simp [policyFromDoc, hspec] at hp
          | bool b => simp [policyFromDoc, hspec] at hp
          | num n => simp [policyFromDoc, hspec] at hp
          | str s => simp [policyFromDoc, hspec] at hp
          | arr es => simp [policyFromDoc, hspec] at hp
  | null => simp [policyFromDoc] at hp
  | bool b => simp [policyFromDoc] at hp
  | num n => simp [policyFromDoc] at hp
  | str s => simp [policyFromDoc] at hp
  | arr es => simp [policyFromDoc] at hp

/-- Claim C6: for a document of kind "Policy" that converts successfully,
unwrapping returns exactly the object-template payloads of its
configuration policies and no copy of the container itself; a "Policy"
document that fails conversion yields the empty sequence; any other
document passes through as a one-element sequence. -/
theorem getResourcesFromPolicyIfAny_spec (d : Json) :
    (getKind d = "Policy" → ∀ p, policyFromDoc d = some p →
        getResourcesFromPolicyIfAny d = getObjectTemplates p ∧
        d ∉ getResourcesFromPolicyIfAny d) ∧
    (getKind d = "Policy" → policyFromDoc d = none →
        getResourcesFromPolicyIfAny d = []) ∧
    (getKind d ≠ "Policy" → getResourcesFromPolicyIfAny d = [d]) := by
  refine ⟨?_, ?_, ?_⟩
  · intro hk p hp
    have heq : getResourcesFromPolicyIfAny d = getObjectTemplates p := by
      unfold getResourcesFromPolicyIfAny
      rw [if_pos hk, hp]
    refine ⟨heq, ?_⟩
    rw [heq]
    intro hmem
    exact absurd (getObjectTemplates_sizeOf hp hmem) (lt_irrefl _)
  · intro hk hp
    unfold getResourcesFromPolicyIfAny
    rw [if_pos hk, hp]
  · intro hk
    unfold getResourcesFromPolicyIfAny
    rw [if_neg hk]

/-- A sample payload embedded in the sample policy. -/
def payloadA : Json :=
  .obj [("apiVersion", .str "v1"), ("kind", .str "B"),
        ("metadata", .obj [("name", .str "pa")])]

/-- A second sample payload embedded in the sample policy. -/
def payloadB : Json :=
  .obj [("apiVersion", .str "v1"), ("kind", .str "C"),
        ("metadata", .obj [("name", .str "pb")])]

/-- The raw configuration-policy payload wrapping the two samples. -/
def cfgDoc : Json :=
  .obj [("apiVersion", .str "policy.open-cluster-management.io/v1"),
        ("kind", .str "ConfigurationPolicy"),
        ("spec", .obj [("object-templates", .arr [
          .obj [("objectDefinition", payloadA)],
          .obj [("objectDefinition", payloadB)]])])]

/-- A container document of kind "Policy" with two embedded
object-template payloads. -/
def policyDoc : Json :=
  .obj [("apiVersion", .str "policy.open-cluster-management.io/v1"),
        ("kind", .str "Policy"),
        ("metadata", .obj [("name", .str "p1")]),
        ("spec", .obj [("policy-templates", .arr [
          .obj [("objectDefinition", cfgDoc)]])])]

/-- Witness for C6: the sample policy converts successfully, unwraps to
exactly its two payloads, and no copy of the container survives. -/
theorem getResourcesFromPolicyIfAny_spec_witness :
    getKind policyDoc = "Policy" ∧
    getResourcesFromPolicyIfAny policyDoc = [payloadA, payloadB] ∧
    policyDoc ∉ getResourcesFromPolicyIfAny policyDoc :=
  ⟨rfl, rfl,
    ((getResourcesFromPolicyIfAny_spec policyDoc).1 rfl ⟨"p1", [⟨cfgDoc⟩]⟩ rfl).2⟩

/-- Documents added to the ingestion state by one file all pass the
exclusion filter. -/
theorem ingestFile_excludes {st st' : IngestState} {f : K8sFile}
    (h : ingestFile st f = .ok st') :
    ∀ d ∈ st'.docs, d ∈ st.docs ∨ excludedResource d = false := by
  unfold ingestFile at h
  cases hp : yamlToUnstructured f with
  | none => rw [hp] at h; simp at h
  | some u =>
      rw [hp] at h
      injection h with hst
      subst hst
      intro d hd
      simp only [List.mem_append] at hd
      rcases hd with hleft | hright
      · exact Or.inl hleft
      · right
        unfold removeResourcesWeDontWantToProcess at hright
        have := (List.mem_filter.mp hright).2
        simpa using this

/-- Same invariant along a list of files. -/
theorem ingestFiles_excludes :
    ∀ (fs : List K8sFile) (st st' : IngestState),
      ingestFiles st fs = .ok st' →
      ∀ d ∈ st'.docs, d ∈ st.docs ∨ excludedResource d = false := by
  intro fs
  induction fs with
  | nil =>
      intro st st' h
      simp only [ingestFiles] at h
      injection h with hst
      subst hst
      intro d hd
      exact Or.inl hd
  | cons f rest ih =>
      intro st st' h
      simp only [ingestFiles] at h
      cases hf : ingestFile st f with
      | error e => rw [hf] at h; simp at h
      | ok st1 =>
          rw [hf] at h
          intro d hd
          rcases ih st1 st' h d hd with h1 | h2
          · exact ingestFile_excludes hf d h1
          · exact Or.inr h2

/-- Same invariant along the directory list. -/
theorem ingestDirs_excludes :
    ∀ (ds : List (List K8sFile)) (st st' : IngestState),
      ingestDirs st ds = .ok st' →
      ∀ d ∈ st'.docs, d ∈ st.docs ∨ excludedResource d = false := by
  intro ds
  induction ds with
  | nil =>
      intro st st' h
      simp only [ingestDirs] at h
      injection h with hst
      subst hst
      intro d hd
      exact Or.inl hd
  | cons fs rest ih =>
      intro st st' h
      simp only [ingestDirs] at h
      cases hf : ingestFiles st fs with
      | error e => rw [hf] at h; simp at h
      | ok st1 =>
          rw [hf] at h
          intro d hd
          rcases ih st1 st' h d hd with h1 | h2
          · exact ingestFiles_excludes fs st st1 hf d h1
          · exact Or.inr h2

/-- Claim C8: no document whose kind or API group/version is in the fixed
exclusion list ever appears in the list ingestion returns, regardless of
whether it came directly from a file or out of a Policy container (the
filter runs after unwrapping on every per-file batch). -/
theorem ingestion_excludes_disallowed_kinds
    (dirs : List (List K8sFile)) (st : IngestState)
    (h : readK8sResourcesFromDir dirs = .ok st) :
    ∀ d ∈ st.docs, excludedResource d = false := by
  intro d hd
  rcases ingestDirs_excludes dirs ⟨[], [], []⟩ st h d hd with h1 | h2
  · simp at h1
  · exact h2

/-- A sample excluded document (kind `Secret`). -/
def dSecret : Json :=
  .obj [("apiVersion", .str "v1"), ("kind", .str "Secret"),
        ("metadata", .obj [("name", .str "s")])]

/-- Witness for C8: ingesting a `Secret` next to an ordinary document
keeps only the ordinary one, and the theorem applies to the result. -/
theorem ingestion_excludes_disallowed_kinds_witness :
    excludedResource dSecret = true ∧
    readK8sResourcesFromDir [[⟨"f1", some dSecret⟩, ⟨"f2", some dR1⟩]] =
      .ok ⟨[(marshalJson dSecret, "f1"), (marshalJson dR1, "f2")], [dR1], []⟩ ∧
    ∀ d ∈ ([dR1] : List Json), excludedResource d = false :=
  ⟨rfl, rfl,
    ingestion_excludes_disallowed_kinds [[⟨"f1", some dSecret⟩, ⟨"f2", some dR1⟩]]
      ⟨[(marshalJson dSecret, "f1"), (marshalJson dR1, "f2")], [dR1], []⟩ rfl⟩

/-!
The ingestion pipeline seen as one fold over the stream of
(sourceFile, document) events, used to characterise deduplication.
-/

/-- The (file, document) events one file contributes after unwrapping. -/
def fileEvents (f : K8sFile) : List (String × Json) :=
  match f.parsed with
  | none => []
  | some u => (getResourcesFromPolicyIfAny u).map (fun d => (f.path, d))

/-- All events of an ingestion run, in processing order. -/
def ingestEvents (dirs : List (List K8sFile)) : List (String × Json) :=
  dirs.flatMap (fun d => d.flatMap fileEvents)

/-- One dedup-and-filter step of the ingestion loop, at event level. -/
def ingestStep (st : IngestState) (ev : String × Json) : IngestState :=
  match strLookup st.seen (marshalJson ev.2) with
  | some f1 => ⟨st.seen, st.docs, st.dupWarnings ++ [(ev.1, f1)]⟩
  | none => ⟨st.seen ++ [(marshalJson ev.2, ev.1)],
             st.docs ++ (if excludedResource ev.2 then [] else [ev.2]),
             st.dupWarnings⟩

/-- A hit in the left part of an appended map stays a hit. -/
theorem strLookup_append_left {m1 : List (String × String)} {k v : String}
    (m2 : List (String × String)) (h : strLookup m1 k = some v) :
    strLookup (m1 ++ m2) k = some v := by
  induction m1 with
  | nil => simp [strLookup] at h
  | cons p rest ih =>
      obtain ⟨k', v'⟩ := p
      simp only [strLookup, List.cons_append] at h ⊢
      split at h
      · next heq => rw [if_pos heq]; exact h
      · next hne => rw [if_neg hne]; exact ih h

/-- A miss in the left part defers to the right part. -/
theorem strLookup_append_none {m1 : List (String × String)} {k : String}
    (m2 : List (String × String)) (h : strLookup m1 k = none) :
    strLookup (m1 ++ m2) k = strLookup m2 k := by
  induction m1 with
  | nil => simp
  | cons p rest ih =>
      obtain ⟨k', v'⟩ := p
      simp only [strLookup, List.cons_append] at h ⊢
      split at h
      · simp at h
      · next hne => rw [if_neg hne]; exact ih h

/-- Warnings only accumulate along the event fold. -/
theorem ingestFold_warnings_mono :
    ∀ (evs : List (String × Json)) (st0 : IngestState) (w : String × String),
      w ∈ st0.dupWarnings → w ∈ (evs.foldl ingestStep st0).dupWarnings := by
  intro evs
  induction evs with
  | nil => intro st0 w hw; exact hw
  | cons ev rest ih =>
      intro st0 w hw
      refine ih (ingestStep st0 ev) w ?_
      unfold ingestStep
      cases strLookup st0.seen (marshalJson ev.2) with
      | some f1 => simp only [List.mem_append]; exact Or.inl hw
      | none => exact hw

/-- One file's loop body (dedup against the running map, then the
exclusion filter, then append) is the event fold over that file's
events. -/
theorem removeDuplicates_foldl (curFile : String) :
    ∀ (uList : List Json) (st : IngestState),
      (uList.map (fun d => (curFile, d))).foldl ingestStep st =
        ⟨(removeDuplicates uList st.seen curFile).2.1,
         st.docs ++ removeResourcesWeDontWantToProcess
           (removeDuplicates uList st.seen curFile).1,
         st.dupWarnings ++ (removeDuplicates uList st.seen curFile).2.2⟩ := by
  intro uList
  induction uList with
  | nil =>
      intro st
      obtain ⟨s, d, w⟩ := st
      simp [removeDuplicates, removeResourcesWeDontWantToProcess]
  | cons curU rest ih =>
      intro st
      simp only [List.map_cons, List.foldl_cons]
      cases hL : strLookup st.seen (marshalJson curU) with
      | some f1 =>
          have hstep : ingestStep st (curFile, curU) =
              ⟨st.seen, st.docs, st.dupWarnings ++ [(curFile, f1)]⟩ := by
            simp [ingestStep, hL]
          rw [hstep, ih ⟨st.seen, st.docs, st.dupWarnings ++ [(curFile, f1)]⟩]
          simp only [removeDuplicates, hL]
          simp
      | none =>
          have hstep : ingestStep st (curFile, curU) =
              ⟨st.seen ++ [(marshalJson curU, curFile)],
               st.docs ++ (if excludedResource curU then [] else [curU]),
               st.dupWarnings⟩ := by
            simp [ingestStep, hL]
          rw [hstep, ih ⟨st.seen ++ [(marshalJson curU, curFile)],
            st.docs ++ (if excludedResource curU then [] else [curU]), st.dupWarnings⟩]
          simp only [removeDuplicates, hL]
          unfold removeResourcesWeDontWantToProcess
          simp only [List.filter_cons]
          cases hex : excludedResource curU with
          | true => simp [hex]
          | false => simp [hex]

/-- Processing one parsed file is the event fold over its events. -/
theorem ingestFile_eq_foldl (st : IngestState) (f : K8sFile) (u : Json)
    (h : f.parsed = some u) :
    ingestFile st f = .ok ((fileEvents f).foldl ingestStep st) := by
  unfold ingestFile fileEvents yamlToUnstructured
  rw [h]
  rw [removeDuplicates_foldl f.path (getResourcesFromPolicyIfAny u) st]

/-- Processing a file list is the event fold over its events. -/
theorem ingestFiles_eq_foldl :
    ∀ (fs : List K8sFile) (st st' : IngestState),
      ingestFiles st fs = .ok st' →
      st' = (fs.flatMap fileEvents).foldl ingestStep st := by
  intro fs
  induction fs with
  | nil =>
      intro st st' h
      simp only [ingestFiles] at h
      injection h with hst
      subst hst
      simp
  | cons f rest ih =>
      intro st st' h
      simp only [ingestFiles] at h
      cases hf : ingestFile st f with
      | error e => rw [hf] at h; simp at h
      | ok st1 =>
          rw [hf] at h
          cases hp : f.parsed with
          | none =>
              unfold ingestFile yamlToUnstructured at hf
              rw [hp] at hf
              simp at hf
          | some u =>
              have heq := ingestFile_eq_foldl st f u hp
              rw [heq] at hf
              injection hf with hst1
              rw [List.flatMap_cons, List.foldl_append, hst1]
              exact ih st1 st' h

/-- Ingestion is the event fold over the whole event stream. -/
theorem ingestDirs_eq_foldl :
    ∀ (ds : List (List K8sFile)) (st st' : IngestState),
      ingestDirs st ds = .ok st' →
      st' = (ds.flatMap (fun d => d.flatMap fileEvents)).foldl ingestStep st := by
  intro ds
  induction ds with
  | nil =>
      intro st st' h
      simp only [ingestDirs] at h
      injection h with hst
      subst hst
      simp
  | cons fs rest ih =>
      intro st st' h
      simp only [ingestDirs] at h
      cases hf : ingestFiles st fs with
      | error e => rw [hf] at h; simp at h
      | ok st1 =>
          rw [hf] at h
          rw [List.flatMap_cons, List.foldl_append,
            ← ingestFiles_eq_foldl fs st st1 hf]
          exact ih st1 st' h

/-- Once a canonical form is in the dedup map with its first file, later
events with that form never change the kept documents, the map entry
stays, and each such event logs a warning naming its file and the first
file. -/
theorem ingestFold_already_seen {c f1 : String} :
    ∀ (evs : List (String × Json)) (st0 : IngestState),
      strLookup st0.seen c = some f1 →
      ((evs.foldl ingestStep st0).docs.filter (fun d => marshalJson d == c) =
        st0.docs.filter (fun d => marshalJson d == c)) ∧
      strLookup (evs.foldl ingestStep st0).seen c = some f1 ∧
      (∀ ev ∈ evs, marshalJson ev.2 = c →
        (ev.1, f1) ∈ (evs.foldl ingestStep st0).dupWarnings) := by
  intro evs
  induction evs with
  | nil =>
      intro st0 h
      exact ⟨rfl, h, by simp⟩
  | cons ev rest ih =>
      intro st0 h
      simp only [List.foldl_cons]
      by_cases hc : marshalJson ev.2 = c
      · have hL : strLookup st0.seen (marshalJson ev.2) = some f1 := by rw [hc]; exact h
        have hstep : ingestStep st0 ev =
            ⟨st0.seen, st0.docs, st0.dupWarnings ++ [(ev.1, f1)]⟩ := by
          simp [ingestStep, hL]
        rw [hstep]
        have ih1 := ih ⟨st0.seen, st0.docs, st0.dupWarnings ++ [(ev.1, f1)]⟩ h
        refine ⟨ih1.1, ih1.2.1, ?_⟩
        intro ev' hmem hc'
        rcases List.mem_cons.mp hmem with he | ht
        · rw [he]
          exact ingestFold_warnings_mono rest
            ⟨st0.seen, st0.docs, st0.dupWarnings ++ [(ev.1, f1)]⟩ (ev.1, f1) (by simp)
        · exact ih1.2.2 ev' ht hc'
      · cases hL : strLookup st0.seen (marshalJson ev.2) with
        | some f' =>
            have hstep : ingestStep st0 ev =
                ⟨st0.seen, st0.docs, st0.dupWarnings ++ [(ev.1, f')]⟩ := by
              simp [ingestStep, hL]
            rw [hstep]
            have ih1 := ih ⟨st0.seen, st0.docs, st0.dupWarnings ++ [(ev.1, f')]⟩ h
            refine ⟨ih1.1, ih1.2.1, ?_⟩
            intro ev' hmem hc'
            rcases List.mem_cons.mp hmem with he | ht
            · subst he; exact absurd hc' hc
            · exact ih1.2.2 ev' ht hc'
        | none =>
            have hstep : ingestStep st0 ev =
                ⟨st0.seen ++ [(marshalJson ev.2, ev.1)],
                 st0.docs ++ (if excludedResource ev.2 then [] else [ev.2]),
                 st0.dupWarnings⟩ := by
              simp [ingestStep, hL]
            rw [hstep]
            have hseen : strLookup (st0.seen ++ [(marshalJson ev.2, ev.1)]) c = some f1 :=
              strLookup_append_left _ h
            have ih1 := ih ⟨st0.seen ++ [(marshalJson ev.2, ev.1)],
              st0.docs ++ (if excludedResource ev.2 then [] else [ev.2]),
              st0.dupWarnings⟩ hseen
            have hdocs : ((st0.docs ++ (if excludedResource ev.2 then [] else [ev.2])).filter
                (fun d => marshalJson d == c)) =
                st0.docs.filter (fun d => marshalJson d == c) := by
              rw [List.filter_append]
              have he0 : ((if excludedResource ev.2 then ([] : List Json) else [ev.2]).filter
                  (fun d => marshalJson d == c)) = [] := by
                cases excludedResource ev.2 <;> simp [hc]
              rw [he0, List.append_nil]
            refine ⟨ih1.1.trans hdocs, ih1.2.1, ?_⟩
            intro ev' hmem hc'
            rcases List.mem_cons.mp hmem with he | ht
            · subst he; exact absurd hc' hc
            · exact ih1.2.2 ev' ht hc'

/-- If a canonical form is not yet in the dedup map, then after the fold
the kept documents with that form are exactly the first event's document
(unless the exclusion list drops it), and every later event with that
form logs a warning naming its file together with the first event's
file. -/
theorem ingestFold_first_occurrence {c : String} :
    ∀ (evs : List (String × Json)) (st0 : IngestState) (e1 : String × Json)
      (rest : List (String × Json)),
      strLookup st0.seen c = none →
      evs.filter (fun ev => marshalJson ev.2 == c) = e1 :: rest →
      ((evs.foldl ingestStep st0).docs.filter (fun d => marshalJson d == c) =
        st0.docs.filter (fun d => marshalJson d == c) ++
          (if excludedResource e1.2 then [] else [e1.2])) ∧
      ∀ ev ∈ rest, (ev.1, e1.1) ∈ (evs.foldl ingestStep st0).dupWarnings := by
  intro evs
  induction evs with
  | nil =>
      intro st0 e1 rest h hf
      simp at hf
  | cons ev evs' ih =>
      intro st0 e1 rest h hf
      simp only [List.foldl_cons]
      by_cases hc : marshalJson ev.2 = c
      · have hfc : (marshalJson ev.2 == c) = true := beq_iff_eq.mpr hc
        rw [List.filter_cons] at hf
        rw [if_pos hfc] at hf
        injection hf with he hrest
        have hL : strLookup st0.seen (marshalJson ev.2) = none := by rw [hc]; exact h
        have hstep : ingestStep st0 ev =
            ⟨st0.seen ++ [(marshalJson ev.2, ev.1)],
             st0.docs ++ (if excludedResource ev.2 then [] else [ev.2]),
             st0.dupWarnings⟩ := by
          simp [ingestStep, hL]
        rw [hstep]
        have hseen1 : strLookup (st0.seen ++ [(marshalJson ev.2, ev.1)]) c = some ev.1 := by
          rw [strLookup_append_none _ h]
          simp [strLookup, hc]
        have lemA := ingestFold_already_seen evs'
          ⟨st0.seen ++ [(marshalJson ev.2, ev.1)],
           st0.docs ++ (if excludedResource ev.2 then [] else [ev.2]),
           st0.dupWarnings⟩ hseen1
        constructor
        · rw [lemA.1, List.filter_append]
          subst he
          congr 1
          cases hex : excludedResource ev.2 with
          | true => simp
          | false => simp [hfc]
        · intro ev' hmem
          rw [← hrest] at hmem
          have hm := List.mem_filter.mp hmem
          subst he
          exact lemA.2.2 ev' hm.1 (beq_iff_eq.mp hm.2)
      · have hfc : (marshalJson ev.2 == c) = false := by
          cases hb : (marshalJson ev.2 == c) with
          | false => rfl
          | true => exact absurd (beq_iff_eq.mp hb) hc
        rw [List.filter_cons] at hf
        rw [if_neg (by simp [hfc])] at hf
        cases hL : strLookup st0.seen (marshalJson ev.2) with
        | some f' =>
            have hstep : ingestStep st0 ev =
                ⟨st0.seen, st0.docs, st0.dupWarnings ++ [(ev.1, f')]⟩ := by
              simp [ingestStep, hL]
            rw [hstep]
            exact ih ⟨st0.seen, st0.docs, st0.dupWarnings ++ [(ev.1, f')]⟩ e1 rest h hf
        | none =>
            have hstep : ingestStep st0 ev =
                ⟨st0.seen ++ [(marshalJson ev.2, ev.1)],
                 st0.docs ++ (if excludedResource ev.2 then [] else [ev.2]),
                 st0.dupWarnings⟩ := by
              simp [ingestStep, hL]
            rw [hstep]
            have hseen1 : strLookup (st0.seen ++ [(marshalJson ev.2, ev.1)]) c = none := by
              rw [strLookup_append_none _ h]
              simp [strLookup, hc]
            have ih1 := ih ⟨st0.seen ++ [(marshalJson ev.2, ev.1)],
              st0.docs ++ (if excludedResource ev.2 then [] else [ev.2]),
              st0.dupWarnings⟩ e1 rest hseen1 hf
            constructor
            · rw [ih1.1, List.filter_append]
              have he0 : ((if excludedResource ev.2 then ([] : List Json) else [ev.2]).filter
                  (fun d => marshalJson d == c)) = [] := by
                cases excludedResource ev.2 <;> simp [hc]
              rw [he0, List.append_nil]
            · exact ih1.2

/-- Claim C7, amended.  In a run of ingestion that completes, for every
canonical form `c`: the returned document list keeps exactly the first
(file, document) event carrying `c` — unless that document's kind or API
version is in the exclusion list, in which case it keeps none — every
later event carrying `c` is dropped, and each of those later events logs
a duplicate warning naming its own file and the first event's file. -/
theorem ingestion_dedup_first_occurrence
    (dirs : List (List K8sFile)) (st : IngestState) (c : String)
    (e1 : String × Json) (rest : List (String × Json))
    (h : readK8sResourcesFromDir dirs = .ok st)
    (hf : (ingestEvents dirs).filter (fun ev => marshalJson ev.2 == c) = e1 :: rest) :
    st.docs.filter (fun d => marshalJson d == c) =
      (if excludedResource e1.2 then [] else [e1.2]) ∧
    ∀ ev ∈ rest, (ev.1, e1.1) ∈ st.dupWarnings := by
  have hst := ingestDirs_eq_foldl dirs ⟨[], [], []⟩ st h
  rw [hst]
  have hmain := ingestFold_first_occurrence (ingestEvents dirs) ⟨[], [], []⟩ e1 rest rfl hf
  exact ⟨by simpa using hmain.1, hmain.2⟩

/-- Claim C7 counterexample.  Two files with identical canonical content
of an *excluded* kind (`Secret`): the duplicate warning naming both files
is logged, but ingestion retains zero copies, not "exactly the first one
encountered" — the claim as stated fails for excluded kinds because the
exclusion filter runs after deduplication. -/
theorem ingestion_dedup_retains_zero_for_excluded :
    readK8sResourcesFromDir [[⟨"f1", some dSecret⟩, ⟨"f2", some dSecret⟩]] =
      .ok ⟨[(marshalJson dSecret, "f1")], [], [("f2", "f1")]⟩ ∧
    (IngestState.docs ⟨[(marshalJson dSecret, "f1")], [], [("f2", "f1")]⟩ ≠ [dSecret]) :=
  ⟨rfl, by simp⟩

/-- Witness for the amended C7: two files with the same ordinary document;
ingestion keeps the first occurrence and warns `(f2, f1)`. -/
theorem ingestion_dedup_first_occurrence_witness :
    readK8sResourcesFromDir [[⟨"f1", some dR1⟩, ⟨"f2", some dR1⟩]] =
      .ok ⟨[(marshalJson dR1, "f1")], [dR1], [("f2", "f1")]⟩ ∧
    ((ingestEvents [[⟨"f1", some dR1⟩, ⟨"f2", some dR1⟩]]).filter
        (fun ev => marshalJson ev.2 == marshalJson dR1) =
      ("f1", dR1) :: [("f2", dR1)]) ∧
    ([dR1].filter (fun d => marshalJson d == marshalJson dR1) =
      (if excludedResource dR1 then [] else [dR1])) ∧
    (("f2", "f1") ∈ ([("f2", "f1")] : List (String × String))) := by
  have h := ingestion_dedup_first_occurrence
    [[⟨"f1", some dR1⟩, ⟨"f2", some dR1⟩]]
    ⟨[(marshalJson dR1, "f1")], [dR1], [("f2", "f1")]⟩
    (marshalJson dR1) ("f1", dR1) [("f2", dR1)] rfl rfl
  exact ⟨rfl, rfl, h.1, h.2 ("f2", dR1) (by simp)⟩

end RefValidator
